import Mathlib

/-!
# Verification of the TameParse compilation pipeline against its specification

This file gives a shallow embedding, in Lean 4, of the parts of the TameParse
parser generator that the specification describes, and proves or refutes each
specified property against that embedding.

The embedding follows the C++ sources:

* `src/Dfa/symbol_set.cpp` — canonical ordered range sets (`symbol_set`);
* `src/Dfa/state_machine.h` — flat and compact DFA table rows;
* `src/TameParse/Compiler/lexer_stage.cpp` — accept-action priority ordering;
* `src/Compiler/language_compiler.cpp` — lexer passes, implicit symbols and
  undefined-nonterminal diagnostics;
* `src/Lr/parser.h` — the run-time `can_reduce` simulation and the action
  interpreter `perform_generic`.

Helper classes that live in headers absent from the source tree
(`range.h`, `terminal_dictionary.h`, `parser_tables.h`) are modelled from the
specification; each such definition carries a doc comment starting with
`Modelled from the spec:`.
-/

namespace TameParse

/-! ## Symbol ranges and range sets (`src/Dfa/symbol_set.cpp`)

`symbol_set` stores a `std::set<symbol_range>` whose comparator, per the
comment in `symbol_set.cpp`, compares only the lower bound of a range.  We
model the store as a list of ranges ordered by lower bound. -/

/-- Modelled from the spec: `range<int>` (the header `range.h` is not in the
source tree).  A symbol range is the half-open interval `[lo, hi)` of integer
code points. -/
structure SymbolRange where
  lo : Int
  hi : Int
deriving DecidableEq, Repr

/-- Modelled from the spec: `range::operator[]` — membership of a symbol in a
half-open range. -/
def SymbolRange.mem (r : SymbolRange) (s : Int) : Bool :=
  r.lo ≤ s && s < r.hi

/-- Modelled from the spec: `range::can_merge` — two ranges can be merged when
they overlap or are adjacent. -/
def SymbolRange.canMerge (a b : SymbolRange) : Bool :=
  a.lo ≤ b.hi && b.lo ≤ a.hi

/-- Modelled from the spec: `range::merge` — the hull of two ranges. -/
def SymbolRange.merge (a b : SymbolRange) : SymbolRange :=
  ⟨min a.lo b.lo, max a.hi b.hi⟩

/-- `std::set<symbol_range>` insertion with the lower-bound-only comparator of
`symbol_set`: the range is placed at its ordered position, and the insertion is
a no-op when a range with the same lower bound is already present (as for
`std::set::insert` with an equivalent key). -/
def storeInsert : List SymbolRange → SymbolRange → List SymbolRange
  | [], r => [r]
  | x :: xs, r =>
    if r.lo < x.lo then r :: x :: xs
    else if r.lo = x.lo then x :: xs
    else x :: storeInsert xs r

/-- The common prefix of `operator|=` and `operator&=` (symbol_set.cpp lines
44–57 and 96–109): split the store at `lower_bound` of the incoming range, and
pull the preceding range into the working window when it overlaps or touches
the incoming range (`previous->upper() >= mergeWith.lower()`). -/
def lowerSplit (l : List SymbolRange) (r : SymbolRange) :
    List SymbolRange × List SymbolRange :=
  let before := l.takeWhile (fun x => x.lo < r.lo)
  let after := l.dropWhile (fun x => x.lo < r.lo)
  match before.getLast? with
  | some prev => if r.lo ≤ prev.hi then (before.dropLast, prev :: after) else (before, after)
  | none => (before, after)

/-- `symbol_set::operator|=` (symbol_set.cpp lines 40–80): merge a range into
the set.  Mergeable ranges up to `upper_bound(mergeWith.upper())` are folded
into a single hull, erased, and the hull is re-inserted; when nothing can be
merged the range is simply inserted. -/
def insertRange (l : List SymbolRange) (r : SymbolRange) : List SymbolRange :=
  let p := lowerSplit l r
  match p.2 with
  | [] => storeInsert l r
  | f :: _ =>
    if ¬ (r.canMerge f) then storeInsert l r
    else
      let toMerge := p.2.takeWhile (fun x => x.lo ≤ r.hi)
      let tail := p.2.dropWhile (fun x => x.lo ≤ r.hi)
      let merged := toMerge.foldl SymbolRange.merge r
      storeInsert (p.1 ++ tail) merged

/-- `symbol_set::operator&=` (symbol_set.cpp lines 94–141): exclude a range
from the set.  The iterator `finalValue` is decremented before the erase, so
`erase(firstGreaterThan, finalValue)` removes every affected range *except the
last one*, which stays in the store; the two boundary fragments are then
(set-)inserted. -/
def removeRange (l : List SymbolRange) (r : SymbolRange) : List SymbolRange :=
  let p := lowerSplit l r
  match p.2 with
  | [] => l
  | f :: rest =>
    if ¬ (r.canMerge f) then l
    else
      let affected := (f :: rest).takeWhile (fun x => x.lo ≤ r.hi)
      let tail := (f :: rest).dropWhile (fun x => x.lo ≤ r.hi)
      match affected.getLast? with
      | none => l
      | some fin =>
        -- erase(firstGreaterThan, finalValue): every affected range but `fin`
        let kept := p.1 ++ fin :: tail
        let kept2 := if f.lo < r.lo then storeInsert kept ⟨f.lo, r.lo⟩ else kept
        if r.hi < fin.hi then storeInsert kept2 ⟨r.hi, fin.hi⟩ else kept2

/-- `symbol_set::operator[]` (symbol_set.cpp lines 144–156): find the last
stored range whose lower bound is `≤ symbol` (the predecessor of
`upper_bound(symbol)`) and test membership there. -/
def containsSym (l : List SymbolRange) (s : Int) : Bool :=
  match (l.takeWhile (fun x => x.lo ≤ s)).getLast? with
  | none => false
  | some r => r.mem s

/-- The canonical invariant on a `symbol_set` store: every range is well
formed and consecutive ranges are separated by a non-empty gap (so they are
strictly ordered by lower bound, non-overlapping and non-adjacent). -/
def Canonical (l : List SymbolRange) : Prop :=
  (∀ r ∈ l, r.lo ≤ r.hi) ∧ List.Chain' (fun a b => a.hi < b.lo) l


/-! ### Properties of the canonical store -/

theorem SymbolRange.mem_iff {r : SymbolRange} {s : Int} :
    r.mem s = true ↔ (r.lo ≤ s ∧ s < r.hi) := by
  simp [SymbolRange.mem]

theorem SymbolRange.mem_eq_false_of_lt {r : SymbolRange} {s : Int} (h : s < r.lo) :
    r.mem s = false := by
  have h2 : ¬ (r.lo ≤ s) := by omega
  simp [SymbolRange.mem, h2]

theorem SymbolRange.mem_eq_false_of_ge {r : SymbolRange} {s : Int} (h : r.hi ≤ s) :
    r.mem s = false := by
  have h2 : ¬ (s < r.hi) := by omega
  simp [SymbolRange.mem, h2]

theorem canonical_head_lt {x : SymbolRange} {xs : List SymbolRange}
    (h : Canonical (x :: xs)) : ∀ y ∈ xs, x.hi < y.lo := by
  induction xs generalizing x with
  | nil => intro y hy; cases hy
  | cons a as ih =>
    intro y hy
    obtain ⟨hwf, hch⟩ := h
    rw [List.chain'_cons] at hch
    rcases List.mem_cons.mp hy with rfl | hy
    · exact hch.1
    · have ha : Canonical (a :: as) := ⟨fun r hr => hwf r (List.mem_cons_of_mem _ hr), hch.2⟩
      have h2 := ih ha y hy
      have hwa : a.lo ≤ a.hi := hwf a (by simp)
      have h1 := hch.1
      omega

theorem canonical_tail {x : SymbolRange} {xs : List SymbolRange}
    (h : Canonical (x :: xs)) : Canonical xs :=
  ⟨fun r hr => h.1 r (List.mem_cons_of_mem _ hr), (List.chain'_cons'.mp h.2).2⟩

theorem canonical_append_iff {l₁ l₂ : List SymbolRange} :
    Canonical (l₁ ++ l₂) ↔
      Canonical l₁ ∧ Canonical l₂ ∧
        ∀ x ∈ l₁.getLast?, ∀ y ∈ l₂.head?, x.hi < y.lo := by
  unfold Canonical
  rw [List.chain'_append]
  constructor
  · rintro ⟨hwf, h1, h2, h3⟩
    exact ⟨⟨fun r hr => hwf r (by simp [hr]), h1⟩,
      ⟨fun r hr => hwf r (by simp [hr]), h2⟩, h3⟩
  · rintro ⟨⟨hw1, h1⟩, ⟨hw2, h2⟩, h3⟩
    refine ⟨fun r hr => ?_, h1, h2, h3⟩
    rcases List.mem_append.mp hr with hr | hr
    · exact hw1 r hr
    · exact hw2 r hr

theorem canonical_append_lt {l₁ l₂ : List SymbolRange}
    (h : Canonical (l₁ ++ l₂)) : ∀ x ∈ l₁, ∀ y ∈ l₂, x.hi < y.lo := by
  induction l₁ with
  | nil => intro x hx; cases hx
  | cons a as ih =>
    intro x hx y hy
    rcases List.mem_cons.mp hx with rfl | hx
    · exact canonical_head_lt h y (by simp [hy])
    · exact ih (canonical_tail h) x hx y hy

/-- Membership in a canonical store is membership in any stored range: the
binary-search lookup of `operator[]` agrees with a linear scan. -/
theorem containsSym_eq_any {l : List SymbolRange} (h : Canonical l) (s : Int) :
    containsSym l s = l.any (fun r => r.mem s) := by
  induction l with
  | nil => rfl
  | cons x xs ih =>
    have hxs := ih (canonical_tail h)
    by_cases hx : x.lo ≤ s
    · unfold containsSym at hxs ⊢
      rw [List.takeWhile_cons_of_pos (by simpa using hx)]
      cases xs with
      | nil => simp [SymbolRange.mem]
      | cons z zs =>
        by_cases hz : z.lo ≤ s
        · -- the lookup recurses into the tail; the head cannot contain s
          rw [List.takeWhile_cons_of_pos (by simpa using hz)] at hxs ⊢
          rw [List.getLast?_cons_cons]
          have hgap := canonical_head_lt h z (by simp)
          have hxmem : x.mem s = false :=
            SymbolRange.mem_eq_false_of_ge (by omega)
          rw [List.any_cons, hxmem, Bool.false_or]
          exact hxs
        · -- every later range starts after s: the head decides
          rw [List.takeWhile_cons_of_neg (by simpa using hz)]
          have hany : (z :: zs).any (fun r => r.mem s) = false := by
            rw [List.any_eq_false]
            intro y hy
            have hylo : s < y.lo := by
              rcases List.mem_cons.mp hy with rfl | hy
              · omega
              · have h1 := canonical_head_lt (canonical_tail h) y hy
                have h2 : z.lo ≤ z.hi := (canonical_tail h).1 z (by simp)
                omega
            simp [SymbolRange.mem_eq_false_of_lt hylo]
          rw [List.any_cons, hany, Bool.or_false]
          simp
    · unfold containsSym
      rw [List.takeWhile_cons_of_neg (by simpa using hx)]
      have hany : (x :: xs).any (fun r => r.mem s) = false := by
        rw [List.any_eq_false]
        intro y hy
        have hylo : s < y.lo := by
          rcases List.mem_cons.mp hy with rfl | hy
          · omega
          · have h1 := canonical_head_lt h y hy
            have h2 : x.lo ≤ x.hi := h.1 x (by simp)
            omega
        simp [SymbolRange.mem_eq_false_of_lt hylo]
      rw [hany]
      rfl


/-! ### Hull-merging and ordered insertion lemmas -/

theorem bool_eq_of_iff {a b : Bool} (h : a = true ↔ b = true) : a = b := by
  cases a <;> cases b <;> simp_all

theorem dropWhile_head_not {α : Type} {p : α → Bool} {l : List α} {f : α}
    {rest : List α} (h : l.dropWhile p = f :: rest) : p f = false := by
  have h2 := List.head?_dropWhile_not p l
  rw [h] at h2
  simpa using h2

theorem merge_mem {a b : SymbolRange} (s : Int) (h1 : b.lo ≤ a.hi) (h2 : a.lo ≤ b.hi) :
    (a.merge b).mem s = (a.mem s || b.mem s) := by
  apply bool_eq_of_iff
  simp only [SymbolRange.mem_iff, SymbolRange.merge, Bool.or_eq_true, min_le_iff, lt_max_iff]
  omega

theorem foldl_merge_lo_le (xs : List SymbolRange) (acc : SymbolRange) :
    (xs.foldl SymbolRange.merge acc).lo ≤ acc.lo := by
  induction xs generalizing acc with
  | nil => simp
  | cons x xs ih =>
    have h := ih (acc.merge x)
    simp only [List.foldl_cons]
    have h2 : (acc.merge x).lo ≤ acc.lo := min_le_left _ _
    omega

theorem le_foldl_merge_lo (xs : List SymbolRange) (acc : SymbolRange) (m : Int)
    (h1 : m ≤ acc.lo) (h2 : ∀ x ∈ xs, m ≤ x.lo) :
    m ≤ (xs.foldl SymbolRange.merge acc).lo := by
  induction xs generalizing acc with
  | nil => simpa
  | cons x xs ih =>
    simp only [List.foldl_cons]
    refine ih (acc.merge x) ?_ (fun y hy => h2 y (by simp [hy]))
    have hx := h2 x (by simp)
    simp only [SymbolRange.merge, le_min_iff]
    omega

theorem foldl_merge_hi_lt (xs : List SymbolRange) (acc : SymbolRange) (B : Int)
    (h1 : acc.hi < B) (h2 : ∀ x ∈ xs, x.hi < B) :
    (xs.foldl SymbolRange.merge acc).hi < B := by
  induction xs generalizing acc with
  | nil => simpa
  | cons x xs ih =>
    simp only [List.foldl_cons]
    refine ih (acc.merge x) ?_ (fun y hy => h2 y (by simp [hy]))
    have hx := h2 x (by simp)
    simp only [SymbolRange.merge, max_lt_iff]
    omega

theorem foldl_merge_wf (xs : List SymbolRange) (acc : SymbolRange)
    (h : acc.lo ≤ acc.hi) :
    (xs.foldl SymbolRange.merge acc).lo ≤ (xs.foldl SymbolRange.merge acc).hi := by
  induction xs generalizing acc with
  | nil => simpa
  | cons x xs ih =>
    simp only [List.foldl_cons]
    refine ih (acc.merge x) ?_
    simp only [SymbolRange.merge, min_le_iff, le_max_iff]
    omega

theorem foldl_merge_mem (xs : List SymbolRange) (acc : SymbolRange) (s : Int)
    (h : ∀ x ∈ xs, x.lo ≤ acc.hi ∧ acc.lo ≤ x.hi) :
    (xs.foldl SymbolRange.merge acc).mem s
      = (acc.mem s || xs.any (fun q => q.mem s)) := by
  induction xs generalizing acc with
  | nil => simp
  | cons x xs ih =>
    simp only [List.foldl_cons, List.any_cons]
    have hx := h x (by simp)
    have hrec := ih (acc.merge x) (fun y hy => by
      have hy2 := h y (by simp [hy])
      refine ⟨?_, ?_⟩
      · simp only [SymbolRange.merge, le_max_iff]
        omega
      · simp only [SymbolRange.merge, min_le_iff]
        omega)
    rw [hrec, merge_mem s hx.1 hx.2, Bool.or_assoc]

theorem storeInsert_eq (l₁ l₂ : List SymbolRange) (r : SymbolRange)
    (h₁ : ∀ x ∈ l₁, x.lo < r.lo) (h₂ : ∀ x ∈ l₂, r.lo < x.lo) :
    storeInsert (l₁ ++ l₂) r = l₁ ++ r :: l₂ := by
  induction l₁ with
  | nil =>
    cases l₂ with
    | nil => rfl
    | cons x xs =>
      have hx := h₂ x (by simp)
      simp [storeInsert, hx]
  | cons x xs ih =>
    have hx := h₁ x (by simp)
    have hne1 : ¬ (r.lo < x.lo) := by omega
    have hne2 : ¬ (r.lo = x.lo) := by omega
    simp only [List.cons_append, storeInsert, hne1, if_false, hne2,
      ih (fun y hy => h₁ y (by simp [hy])), List.append_eq]

/-! ### The split at the lower bound -/

theorem lowerSplit_eq_nil (l : List SymbolRange) (r : SymbolRange)
    (h : (l.takeWhile (fun x => x.lo < r.lo)).getLast? = none) :
    lowerSplit l r
      = (l.takeWhile (fun x => x.lo < r.lo), l.dropWhile (fun x => x.lo < r.lo)) := by
  simp only [lowerSplit, h]

theorem lowerSplit_eq_pull (l : List SymbolRange) (r : SymbolRange) (prev : SymbolRange)
    (h : (l.takeWhile (fun x => x.lo < r.lo)).getLast? = some prev)
    (hover : r.lo ≤ prev.hi) :
    lowerSplit l r
      = ((l.takeWhile (fun x => x.lo < r.lo)).dropLast,
          prev :: l.dropWhile (fun x => x.lo < r.lo)) := by
  simp only [lowerSplit, h, if_pos hover]

theorem lowerSplit_eq_keep (l : List SymbolRange) (r : SymbolRange) (prev : SymbolRange)
    (h : (l.takeWhile (fun x => x.lo < r.lo)).getLast? = some prev)
    (hover : ¬ r.lo ≤ prev.hi) :
    lowerSplit l r
      = (l.takeWhile (fun x => x.lo < r.lo), l.dropWhile (fun x => x.lo < r.lo)) := by
  simp only [lowerSplit, h, if_neg hover]

theorem lowerSplit_spec {l : List SymbolRange} {r : SymbolRange}
    {b2 a2 : List SymbolRange}
    (hC : Canonical l) (hEq : lowerSplit l r = (b2, a2)) :
    l = b2 ++ a2 ∧ (∀ x ∈ b2, x.hi < r.lo) ∧
      (∀ f ∈ a2.head?, (f.lo < r.lo ∧ r.lo ≤ f.hi) ∨ r.lo ≤ f.lo) := by
  have hsplit : l = l.takeWhile (fun x => x.lo < r.lo) ++ l.dropWhile (fun x => x.lo < r.lo) :=
    (List.takeWhile_append_dropWhile _ _).symm
  have hbefore : ∀ x ∈ l.takeWhile (fun x => x.lo < r.lo), x.lo < r.lo := fun x hx => by
    simpa using List.mem_takeWhile_imp hx
  have hafter : ∀ f ∈ (l.dropWhile (fun x => x.lo < r.lo)).head?, r.lo ≤ f.lo := by
    intro f hf
    cases hd : l.dropWhile (fun x => x.lo < r.lo) with
    | nil => rw [hd] at hf; cases hf
    | cons g gs =>
      rw [hd] at hf
      simp only [List.head?_cons, Option.mem_def, Option.some.injEq] at hf
      subst hf
      have h2 := dropWhile_head_not hd
      simpa using h2
  have hCb : Canonical (l.takeWhile (fun x => x.lo < r.lo)) := by
    rw [hsplit] at hC
    exact (canonical_append_iff.mp hC).1
  cases hlast : (l.takeWhile (fun x => x.lo < r.lo)).getLast? with
  | none =>
    rw [lowerSplit_eq_nil l r hlast] at hEq
    injection hEq with e1 e2
    subst e1
    subst e2
    rw [List.getLast?_eq_none_iff] at hlast
    refine ⟨hsplit, ?_, fun f hf => Or.inr (hafter f hf)⟩
    intro x hx
    rw [hlast] at hx
    cases hx
  | some prev =>
    have hprevmem : prev ∈ l.takeWhile (fun x => x.lo < r.lo) :=
      List.mem_of_getLast?_eq_some hlast
    have hprevlo : prev.lo < r.lo := hbefore prev hprevmem
    have hdecomp : (l.takeWhile (fun x => x.lo < r.lo)).dropLast ++ [prev]
        = l.takeWhile (fun x => x.lo < r.lo) :=
      List.dropLast_append_getLast? prev hlast
    have hCdec : Canonical ((l.takeWhile (fun x => x.lo < r.lo)).dropLast ++ [prev]) := by
      rw [hdecomp]
      exact hCb
    by_cases hover : r.lo ≤ prev.hi
    · rw [lowerSplit_eq_pull l r prev hlast hover] at hEq
      injection hEq with e1 e2
      subst e1
      subst e2
      refine ⟨?_, ?_, ?_⟩
      · conv_lhs => rw [hsplit, ← hdecomp]
        simp
      · intro x hx
        have hgap : x.hi < prev.lo := canonical_append_lt hCdec x hx prev (by simp)
        omega
      · intro f hf
        simp only [List.head?_cons, Option.mem_def, Option.some.injEq] at hf
        subst hf
        exact Or.inl ⟨hprevlo, hover⟩
    · rw [lowerSplit_eq_keep l r prev hlast hover] at hEq
      injection hEq with e1 e2
      subst e1
      subst e2
      refine ⟨hsplit, ?_, fun f hf => Or.inr (hafter f hf)⟩
      intro x hx
      have hwfprev : prev.lo ≤ prev.hi := hC.1 prev (by rw [hsplit]; exact List.mem_append_left _ hprevmem)
      rcases List.mem_append.mp (by rw [hdecomp]; exact hx :
          x ∈ (l.takeWhile (fun x => x.lo < r.lo)).dropLast ++ [prev]) with hx2 | hx2
      · have hgap : x.hi < prev.lo := canonical_append_lt hCdec x hx2 prev (by simp)
        omega
      · simp only [List.mem_singleton] at hx2
        subst hx2
        omega

/-- A `symbol_set` object: the C++ object identity (its address) together with
its stored ranges.  `operator==` / `operator<` compare addresses only. -/
structure SymbolSetObj where
  addr : Nat
  ranges : List SymbolRange

/-! ### Correctness of `operator|=` (claim C4) -/

theorem insertRange_eq_nil {l : List SymbolRange} {r : SymbolRange}
    {b2 : List SymbolRange} (h : lowerSplit l r = (b2, [])) :
    insertRange l r = storeInsert l r := by
  simp only [insertRange, h]

theorem insertRange_eq_noMerge {l : List SymbolRange} {r : SymbolRange}
    {b2 : List SymbolRange} {f : SymbolRange} {rest : List SymbolRange}
    (h : lowerSplit l r = (b2, f :: rest)) (hcm : ¬ r.canMerge f = true) :
    insertRange l r = storeInsert l r := by
  simp only [insertRange, h, if_pos hcm]

theorem insertRange_eq_merge {l : List SymbolRange} {r : SymbolRange}
    {b2 : List SymbolRange} {f : SymbolRange} {rest : List SymbolRange}
    (h : lowerSplit l r = (b2, f :: rest)) (hcm : r.canMerge f = true) :
    insertRange l r
      = storeInsert (b2 ++ (f :: rest).dropWhile (fun x => x.lo ≤ r.hi))
          (((f :: rest).takeWhile (fun x => x.lo ≤ r.hi)).foldl SymbolRange.merge r) := by
  simp only [insertRange, h, if_neg (not_not_intro hcm)]

/-- Claim C4, main lemma: `operator|=` preserves the canonical invariant, and
membership afterwards is membership before or membership in the new range. -/
theorem insertRange_spec (l : List SymbolRange) (r : SymbolRange)
    (hC : Canonical l) (hwr : r.lo ≤ r.hi) :
    Canonical (insertRange l r) ∧
      ∀ s : Int, (insertRange l r).any (fun q => q.mem s)
        = (l.any (fun q => q.mem s) || r.mem s) := by
  obtain ⟨b2, a2, hEq⟩ : ∃ b2 a2, lowerSplit l r = (b2, a2) := ⟨_, _, rfl⟩
  obtain ⟨hUnion, hB2, hHead⟩ := lowerSplit_spec hC hEq
  have hwfl : ∀ x ∈ l, x.lo ≤ x.hi := hC.1
  have hCb2 : Canonical b2 := by
    rw [hUnion] at hC
    exact (canonical_append_iff.mp hC).1
  have hCa2 : Canonical a2 := by
    rw [hUnion] at hC
    exact (canonical_append_iff.mp hC).2.1
  have hGlue : ∀ x ∈ b2, ∀ y ∈ a2, x.hi < y.lo := by
    rw [hUnion] at hC
    exact canonical_append_lt hC
  have hmemb2 : ∀ x ∈ b2, x ∈ l := fun x hx => by
    rw [hUnion]; exact List.mem_append_left _ hx
  cases a2 with
  | nil =>
    rw [insertRange_eq_nil hEq]
    have hl : l = b2 := by simpa using hUnion
    have hlt : ∀ x ∈ l, x.lo < r.lo := by
      intro x hx
      have h1 := hB2 x (hl ▸ hx)
      have h2 := hwfl x hx
      omega
    have hform : storeInsert l r = l ++ [r] := by
      have h3 := storeInsert_eq l [] r hlt (by intro x hx; cases hx)
      simpa using h3
    rw [hform]
    constructor
    · rw [canonical_append_iff]
      refine ⟨hC, ⟨?_, by simp⟩, ?_⟩
      · intro q hq
        simp only [List.mem_singleton] at hq
        subst hq
        exact hwr
      · intro x hx y hy
        simp only [List.head?_cons, Option.mem_def, Option.some.injEq] at hy
        subst hy
        have hxl : x ∈ l := List.mem_of_getLast?_eq_some hx
        exact hB2 x (hl ▸ hxl)
    · intro s
      simp
  | cons f rest =>
    have hf : (f.lo < r.lo ∧ r.lo ≤ f.hi) ∨ r.lo ≤ f.lo := hHead f (by simp)
    have hwff : f.lo ≤ f.hi := hCa2.1 f (by simp)
    have hfmem : f ∈ f :: rest := by simp
    by_cases hcm : r.canMerge f = true
    · -- merge branch
      rw [insertRange_eq_merge hEq hcm]
      have hcm2 : r.lo ≤ f.hi ∧ f.lo ≤ r.hi := by
        simpa [SymbolRange.canMerge] using hcm
      have ha2split : (f :: rest)
          = (f :: rest).takeWhile (fun x => x.lo ≤ r.hi)
            ++ (f :: rest).dropWhile (fun x => x.lo ≤ r.hi) :=
        (List.takeWhile_append_dropWhile _ _).symm
      set toMerge := (f :: rest).takeWhile (fun x => x.lo ≤ r.hi) with htm
      set tl := (f :: rest).dropWhile (fun x => x.lo ≤ r.hi) with htl
      set merged := toMerge.foldl SymbolRange.merge r with hmg
      have hmemtm : ∀ x ∈ toMerge, x.lo ≤ r.hi := fun x hx => by
        simpa using List.mem_takeWhile_imp hx
      have hCtm : Canonical toMerge := by
        rw [ha2split] at hCa2
        exact (canonical_append_iff.mp hCa2).1
      have hCtl : Canonical tl := by
        rw [ha2split] at hCa2
        exact (canonical_append_iff.mp hCa2).2.1
      have hGlue2 : ∀ x ∈ toMerge, ∀ y ∈ tl, x.hi < y.lo := by
        rw [ha2split] at hCa2
        exact canonical_append_lt hCa2
      have hmem_tm_a2 : ∀ x ∈ toMerge, x ∈ f :: rest := fun x hx => by
        rw [ha2split]; exact List.mem_append_left _ hx
      have hmem_tl_a2 : ∀ y ∈ tl, y ∈ f :: rest := fun y hy => by
        rw [ha2split]; exact List.mem_append_right _ hy
      have hlo_tm : ∀ x ∈ toMerge, f.lo ≤ x.lo := by
        intro x hx
        rcases List.mem_cons.mp (hmem_tm_a2 x hx) with rfl | hx2
        · exact le_refl _
        · have := canonical_head_lt hCa2 x hx2
          omega
      have hrlohi_tm : ∀ x ∈ toMerge, r.lo ≤ x.hi := by
        intro x hx
        rcases List.mem_cons.mp (hmem_tm_a2 x hx) with rfl | hx2
        · exact hcm2.1
        · have h1 := canonical_head_lt hCa2 x hx2
          have h2 := hCa2.1 x (List.mem_cons_of_mem _ hx2)
          omega
      have htail_lo : ∀ y ∈ tl, r.hi < y.lo := by
        intro y hy
        cases htt : tl with
        | nil => rw [htt] at hy; cases hy
        | cons t ts =>
          have htlo : ¬ (t.lo ≤ r.hi) := by
            have h0 := dropWhile_head_not (htl.symm ▸ htt)
            simp only [decide_eq_false_iff_not] at h0
            exact h0
          rw [htt] at hy
          rcases List.mem_cons.mp hy with rfl | hy2
          · omega
          · rw [htt] at hCtl
            have h1 := canonical_head_lt hCtl y hy2
            have h2 : t.lo ≤ t.hi := hCtl.1 t (by simp)
            omega
      have hm_lo_le : merged.lo ≤ r.lo := foldl_merge_lo_le _ _
      have hm_lo_ge : min r.lo f.lo ≤ merged.lo :=
        le_foldl_merge_lo _ _ _ (min_le_left _ _)
          (fun x hx => le_trans (min_le_right _ _) (hlo_tm x hx))
      have hm_wf : merged.lo ≤ merged.hi := foldl_merge_wf _ _ hwr
      have hminc := min_choice r.lo f.lo
      have hb2_lt : ∀ x ∈ b2, x.lo < merged.lo := by
        intro x hx
        have h1 := hB2 x hx
        have h2 := hGlue x hx f hfmem
        have h3 := hwfl x (hmemb2 x hx)
        omega
      have hb2_hi_lt : ∀ x ∈ b2, x.hi < merged.lo := by
        intro x hx
        have h1 := hB2 x hx
        have h2 := hGlue x hx f hfmem
        omega
      have htl_gt : ∀ y ∈ tl, merged.lo < y.lo := by
        intro y hy
        have h1 := htail_lo y hy
        omega
      have hform := storeInsert_eq b2 tl merged hb2_lt htl_gt
      rw [hform]
      constructor
      · rw [canonical_append_iff]
        refine ⟨hCb2, ⟨?_, ?_⟩, ?_⟩
        · intro q hq
          rcases List.mem_cons.mp hq with rfl | hq2
          · exact hm_wf
          · exact hCtl.1 q hq2
        · rw [List.chain'_cons']
          refine ⟨?_, hCtl.2⟩
          intro y hy
          have hymem : y ∈ tl := by
            cases htt : tl with
            | nil => rw [htt] at hy; cases hy
            | cons t ts =>
              rw [htt] at hy
              simp only [List.head?_cons, Option.mem_def, Option.some.injEq] at hy
              subst hy
              simp
          refine foldl_merge_hi_lt _ _ _ ?_ ?_
          · exact htail_lo y hymem
          · intro x hx
            exact hGlue2 x hx y hymem
        · intro x hx y hy
          simp only [List.head?_cons, Option.mem_def, Option.some.injEq] at hy
          subst hy
          exact hb2_hi_lt x (List.mem_of_getLast?_eq_some hx)
      · intro s
        have hmm : merged.mem s = (r.mem s || toMerge.any (fun q => q.mem s)) :=
          foldl_merge_mem _ _ _ (fun x hx => ⟨hmemtm x hx, hrlohi_tm x hx⟩)
        conv_rhs => rw [hUnion, ha2split]
        simp only [List.any_append, List.any_cons, hmm]
        cases b2.any fun q => q.mem s <;>
          cases toMerge.any fun q => q.mem s <;>
            cases tl.any fun q => q.mem s <;>
              cases r.mem s <;> rfl
    · -- no-merge branch: insert the range on its own
      rw [insertRange_eq_noMerge hEq hcm]
      have hfar : r.hi < f.lo := by
        rcases hf with ⟨h1, h2⟩ | h2
        · exfalso
          apply hcm
          simp only [SymbolRange.canMerge, Bool.and_eq_true, decide_eq_true_eq]
          omega
        · have h3 : ¬ (r.lo ≤ f.hi ∧ f.lo ≤ r.hi) := by
            simpa [SymbolRange.canMerge] using hcm
          omega
      have hrest_far : ∀ y ∈ f :: rest, r.lo < y.lo := by
        intro y hy
        rcases List.mem_cons.mp hy with rfl | hy2
        · omega
        · have := canonical_head_lt hCa2 y hy2
          omega
      have hb2lo : ∀ x ∈ b2, x.lo < r.lo := by
        intro x hx
        have h1 := hB2 x hx
        have h2 := hwfl x (hmemb2 x hx)
        omega
      have hform := storeInsert_eq b2 (f :: rest) r hb2lo hrest_far
      rw [hUnion, hform]
      constructor
      · rw [canonical_append_iff]
        refine ⟨hCb2, ⟨?_, ?_⟩, ?_⟩
        · intro q hq
          rcases List.mem_cons.mp hq with rfl | hq2
          · exact hwr
          · exact hCa2.1 q hq2
        · rw [List.chain'_cons']
          refine ⟨?_, hCa2.2⟩
          intro y hy
          simp only [List.head?_cons, Option.mem_def, Option.some.injEq] at hy
          subst hy
          exact hfar
        · intro x hx y hy
          simp only [List.head?_cons, Option.mem_def, Option.some.injEq] at hy
          subst hy
          exact hB2 x (List.mem_of_getLast?_eq_some hx)
      · intro s
        simp only [List.any_append, List.any_cons]
        cases b2.any fun q => q.mem s <;>
          cases f.mem s <;>
            cases rest.any fun q => q.mem s <;>
              cases r.mem s <;> rfl

/-- `symbol_set::operator==` (symbol_set.cpp lines 159–163): true exactly for
a comparison of an object with itself. -/
def symbolSetEq (a b : SymbolSetObj) : Bool :=
  if a.addr = b.addr then true else false

/-- `symbol_set::operator<` (symbol_set.cpp lines 166–170): false for the
self-comparison, and false in every other case as well. -/
def symbolSetLt (a b : SymbolSetObj) : Bool :=
  if a.addr = b.addr then false else false

/-! ### Claim theorems for the symbol set -/

/-- **C4**: for every canonical symbol set and well-formed symbol range `r`,
after `operator|=` the stored ranges again satisfy the canonical invariant
(strictly ordered, non-overlapping, non-adjacent, with adjacent or overlapping
ranges merged), and `operator[]` afterwards holds for exactly the symbols that
were members before plus the symbols of `r`. -/
theorem c4_insert_canonical_and_membership (l : List SymbolRange) (r : SymbolRange)
    (hC : Canonical l) (hwr : r.lo ≤ r.hi) :
    Canonical (insertRange l r) ∧
      ∀ s : Int, containsSym (insertRange l r) s = (containsSym l s || r.mem s) := by
  obtain ⟨h1, h2⟩ := insertRange_spec l r hC hwr
  refine ⟨h1, fun s => ?_⟩
  rw [containsSym_eq_any h1, containsSym_eq_any hC, h2]

/-- Witness for **C4** at the concrete store `{[0,2), [8,10)}` and range `[1,5)`. -/
theorem c4_insert_canonical_and_membership_witness :
    Canonical [⟨0,2⟩, ⟨8,10⟩] ∧
      (Canonical (insertRange [⟨0,2⟩, ⟨8,10⟩] ⟨1,5⟩) ∧
        ∀ s : Int, containsSym (insertRange [⟨0,2⟩, ⟨8,10⟩] ⟨1,5⟩) s
          = (containsSym [⟨0,2⟩, ⟨8,10⟩] s || SymbolRange.mem ⟨1,5⟩ s)) :=
  ⟨⟨by decide, by simp [List.chain'_cons]⟩,
    c4_insert_canonical_and_membership [⟨0,2⟩, ⟨8,10⟩] ⟨1,5⟩
      ⟨by decide, by simp [List.chain'_cons]⟩ (by decide)⟩

/-- **C5**: evaluating `operator&=` at the store `{[0,20)}` with the excluded
range `[5,10)`: because `finalValue` is decremented before the half-open
`erase`, the original range `[0,20)` survives, the left fragment `[0,5)` is
lost to a key collision, and symbol `7 ∈ [5,10)` is still reported as a member
after the removal — contradicting the claim that membership afterwards is
false on every symbol of the removed range. -/
theorem c5_remove_leaves_excluded_symbol :
    removeRange [⟨0,20⟩] ⟨5,10⟩ = [⟨0,20⟩, ⟨10,20⟩] ∧
      containsSym (removeRange [⟨0,20⟩] ⟨5,10⟩) 7 = true ∧
      SymbolRange.mem ⟨5,10⟩ 7 = true := by
  refine ⟨by decide, by decide, by decide⟩

/-- **C9**: `symbol_set::operator==` and `operator<` are reference-based:
distinct objects compare unequal and not-less regardless of their ranges,
while every object is equal to itself and not less than itself. -/
theorem c9_reference_identity_comparisons :
    (∀ a b : SymbolSetObj, a.addr ≠ b.addr →
        symbolSetEq a b = false ∧ symbolSetLt a b = false) ∧
      (∀ a : SymbolSetObj, symbolSetEq a a = true ∧ symbolSetLt a a = false) := by
  refine ⟨fun a b h => ⟨?_, ?_⟩, fun a => ⟨?_, ?_⟩⟩ <;>
    simp [symbolSetEq, symbolSetLt, *]

/-- Witness for **C9**: two objects at distinct addresses holding identical
range lists compare unequal and not-less. -/
theorem c9_reference_identity_comparisons_witness :
    symbolSetEq ⟨0, [⟨1,5⟩]⟩ ⟨1, [⟨1,5⟩]⟩ = false ∧
      symbolSetLt ⟨0, [⟨1,5⟩]⟩ ⟨1, [⟨1,5⟩]⟩ = false :=
  c9_reference_identity_comparisons.1 ⟨0, [⟨1,5⟩]⟩ ⟨1, [⟨1,5⟩]⟩ (by decide)

/-! ## DFA state-machine table rows (`src/Dfa/state_machine.h`)

A state's transition list is a list of `(symbol_set, new_state)` pairs, as
enumerated by `state::iterator` in `fill`. -/

/-- One transition `(symbol_set → new_state)` of a DFA state. -/
abbrev Transition := Nat × Int

/-- `state_machine_flat_table::fill` (state_machine.h lines 43–56): a row of
`maxSet` entries, initialised to `-1`, then overwritten at each transition's
symbol set with its target state. -/
def flatFill (maxSet : Nat) (ts : List Transition) : List Int :=
  ts.foldl (fun row p => row.set p.1 p.2) (List.replicate maxSet (-1))

/-- `state_machine_flat_table::operator[]` (state_machine.h lines 64–66):
index the row at the symbol set (callers guarantee the index is in range). -/
def flatLookup (maxSet : Nat) (ts : List Transition) (s : Nat) : Int :=
  (flatFill maxSet ts).getD s (-1)

/-- `state_machine_compact_table::fill` (state_machine.h lines 108–124): the
transition pairs sorted by symbol set (`std::sort` with `compare_entries`). -/
def compactFill (ts : List Transition) : List Transition :=
  ts.insertionSort (fun a b => a.1 ≤ b.1)

/-- `state_machine_compact_table::operator[]` (state_machine.h lines 132–144):
binary search (`std::lower_bound` with `compare_entries`) for the first entry
whose symbol set is not below the query; `-1` when the row is exhausted or the
entry found is for a different symbol set. -/
def compactLookup (ts : List Transition) (s : Nat) : Int :=
  match (compactFill ts).dropWhile (fun p => p.1 < s) with
  | [] => -1
  | p :: _ => if p.1 ≠ s then -1 else p.2

/-- Reference lookup: the target of the first transition on the queried
symbol set, `-1` when there is none. -/
def specLookup (ts : List Transition) (s : Nat) : Int :=
  match ts.find? (fun p => p.1 == s) with
  | some p => p.2
  | none => -1

/-- A transition list drives at most one target per symbol set. -/
def FunctionalRow (ts : List Transition) : Prop :=
  ∀ p ∈ ts, ∀ q ∈ ts, p.1 = q.1 → p.2 = q.2

theorem specLookup_eq_neg_one {ts : List Transition} {s : Nat}
    (h : ∀ t : Int, (s, t) ∉ ts) : specLookup ts s = -1 := by
  unfold specLookup
  have hfind : ts.find? (fun p => p.1 == s) = none := by
    rw [List.find?_eq_none]
    intro p hp hps
    simp only [beq_iff_eq] at hps
    exact h p.2 (by
      have : p = (s, p.2) := by
        cases p
        simp_all
      rw [← this]
      exact hp)
  rw [hfind]

theorem specLookup_eq_target {ts : List Transition} {s : Nat} {t : Int}
    (hfun : FunctionalRow ts) (h : (s, t) ∈ ts) : specLookup ts s = t := by
  unfold specLookup
  cases hfind : ts.find? (fun p => p.1 == s) with
  | none =>
    rw [List.find?_eq_none] at hfind
    exact absurd (by simp : ((s, t).1 == s) = true) (hfind (s, t) h)
  | some q =>
    have hq1 : q.1 = s := by simpa using List.find?_some hfind
    have hq2 : q ∈ ts := List.mem_of_find?_eq_some hfind
    show q.2 = t
    exact hfun q hq2 (s, t) h (by simp [hq1])

theorem getD_flatFill_aux (ts : List Transition) (row : List Int) (s : Nat)
    (hs : s < row.length) :
    (ts.foldl (fun r p => r.set p.1 p.2) row).getD s (-1)
      = match (ts.filter (fun p => p.1 == s)).getLast? with
        | some p => p.2
        | none => row.getD s (-1) := by
  induction ts generalizing row with
  | nil => rfl
  | cons p rest ih =>
    simp only [List.foldl_cons]
    rw [ih (row.set p.1 p.2) (by simpa using hs)]
    by_cases hp : p.1 = s
    · subst hp
      rw [List.filter_cons_of_pos (by simp)]
      cases hrest : rest.filter (fun q => q.1 == p.1) with
      | nil =>
        simp only [List.getLast?_singleton]
        rw [List.getD_eq_getElem?_getD, List.getElem?_set_self (by omega)]
        rfl
      | cons q qs =>
        rw [List.getLast?_cons_cons]
        cases hql : (q :: qs).getLast? with
        | none => simp at hql
        | some z => rfl
    · rw [List.filter_cons_of_neg (by simpa using hp)]
      have : (row.set p.1 p.2).getD s (-1) = row.getD s (-1) := by
        rw [List.getD_eq_getElem?_getD, List.getD_eq_getElem?_getD,
          List.getElem?_set_ne hp]
      rw [this]

theorem flatLookup_eq_specLookup (maxSet : Nat) (ts : List Transition) (s : Nat)
    (hs : s < maxSet) (hfun : FunctionalRow ts) :
    flatLookup maxSet ts s = specLookup ts s := by
  unfold flatLookup flatFill
  rw [getD_flatFill_aux ts _ s (by simpa using hs)]
  cases hlast : (ts.filter (fun p => p.1 == s)).getLast? with
  | none =>
    rw [List.getLast?_eq_none_iff] at hlast
    have hnone : ∀ t : Int, (s, t) ∉ ts := by
      intro t ht
      have : (s, t) ∈ ts.filter (fun p => p.1 == s) :=
        List.mem_filter.mpr ⟨ht, by simp⟩
      rw [hlast] at this
      cases this
    rw [specLookup_eq_neg_one hnone]
    rw [List.getD_eq_getElem?_getD, List.getElem?_replicate_of_lt hs]
    rfl
  | some q =>
    have hq : q ∈ ts.filter (fun p => p.1 == s) := List.mem_of_getLast?_eq_some hlast
    obtain ⟨hqmem, hqkey⟩ := List.mem_filter.mp hq
    simp only [beq_iff_eq] at hqkey
    have : (s, q.2) ∈ ts := by
      have hqe : q = (s, q.2) := by
        cases q
        simp_all
      rw [← hqe]
      exact hqmem
    rw [specLookup_eq_target hfun this]

theorem compactLookup_eq_specLookup (ts : List Transition) (s : Nat)
    (hfun : FunctionalRow ts) :
    compactLookup ts s = specLookup ts s := by
  have hperm : List.Perm (compactFill ts) ts := List.perm_insertionSort _ ts
  have hsorted : List.Pairwise (fun a b : Transition => a.1 ≤ b.1) (compactFill ts) := by
    haveI : IsTotal Transition (fun a b => a.1 ≤ b.1) := ⟨fun a b => Nat.le_total a.1 b.1⟩
    haveI : IsTrans Transition (fun a b => a.1 ≤ b.1) := ⟨fun a b c => Nat.le_trans⟩
    exact List.sorted_insertionSort _ ts
  have hmem : ∀ p, p ∈ compactFill ts ↔ p ∈ ts := fun p => hperm.mem_iff
  unfold compactLookup
  have hsplit : compactFill ts
      = (compactFill ts).takeWhile (fun p => p.1 < s)
        ++ (compactFill ts).dropWhile (fun p => p.1 < s) :=
    (List.takeWhile_append_dropWhile _ _).symm
  cases hd : (compactFill ts).dropWhile (fun p => p.1 < s) with
  | nil =>
    have hnone : ∀ t : Int, (s, t) ∉ ts := by
      intro t ht
      have h1 : (s, t) ∈ compactFill ts := (hmem _).mpr ht
      rw [hsplit, hd, List.append_nil] at h1
      have := List.mem_takeWhile_imp h1
      simp at this
    rw [specLookup_eq_neg_one hnone]
  | cons q qs =>
    have hqlow : ¬ (q.1 < s) := by simpa using dropWhile_head_not hd
    by_cases hqs : q.1 = s
    · simp only [hqs, ne_eq, not_true_eq_false, if_false]
      have hqmem : q ∈ ts := by
        rw [← hmem q, hsplit, hd]
        exact List.mem_append_right _ (by simp)
      have : (s, q.2) ∈ ts := by
        have hqe : q = (s, q.2) := by
          rw [← hqs]
        rw [← hqe]
        exact hqmem
      rw [specLookup_eq_target hfun this]
    · simp only [ne_eq, hqs, not_false_eq_true, if_true]
      have hnone : ∀ t : Int, (s, t) ∉ ts := by
        intro t ht
        have h1 : (s, t) ∈ compactFill ts := (hmem _).mpr ht
        rw [hsplit, hd] at h1
        rcases List.mem_append.mp h1 with h2 | h2
        · have := List.mem_takeWhile_imp h2
          simp at this
        · rcases List.mem_cons.mp h2 with h3 | h3
          · exact hqs (by rw [← h3])
          · -- entries after the found one have larger keys
            have hpair : (fun a b => a.1 ≤ b.1) q (s, t) := by
              have hsor : List.Pairwise (fun a b : Transition => a.1 ≤ b.1)
                  ((compactFill ts).dropWhile (fun p => p.1 < s)) :=
                List.Pairwise.sublist (List.dropWhile_sublist _) hsorted
              rw [hd] at hsor
              exact (List.pairwise_cons.mp hsor).1 (s, t) h3
            simp only at hpair
            omega
      rw [specLookup_eq_neg_one hnone]

/-- **C10**: for a DFA state whose transition list has at most one target per
symbol set, the flat table row and the compact table row are pointwise equal
lookup functions on `[0, maxSet)`: both return the transition's target on its
symbol set, and `-1` on a symbol set with no transition. -/
theorem c10_flat_and_compact_rows_agree (maxSet : Nat) (ts : List Transition)
    (hfun : FunctionalRow ts) (_hkeys : ∀ p ∈ ts, p.1 < maxSet) :
    ∀ s : Nat, s < maxSet →
      flatLookup maxSet ts s = compactLookup ts s ∧
        (∀ t : Int, (s, t) ∈ ts → compactLookup ts s = t) ∧
        ((∀ t : Int, (s, t) ∉ ts) → compactLookup ts s = -1) := by
  intro s hs
  have h1 := flatLookup_eq_specLookup maxSet ts s hs hfun
  have h2 := compactLookup_eq_specLookup ts s hfun
  refine ⟨by rw [h1, h2], ?_, ?_⟩
  · intro t ht
    rw [h2, specLookup_eq_target hfun ht]
  · intro hno
    rw [h2, specLookup_eq_neg_one hno]

/-- Witness for **C10** at a concrete sparsely filled row. -/
theorem c10_flat_and_compact_rows_agree_witness :
    flatLookup 4 [(2, 7), (0, 5)] 2 = compactLookup [(2, 7), (0, 5)] 2 ∧
      (∀ t : Int, ((2 : Nat), t) ∈ [((2 : Nat), (7 : Int)), (0, 5)] →
        compactLookup [(2, 7), (0, 5)] 2 = t) ∧
      ((∀ t : Int, ((2 : Nat), t) ∉ [((2 : Nat), (7 : Int)), (0, 5)]) →
        compactLookup [(2, 7), (0, 5)] 2 = -1) :=
  c10_flat_and_compact_rows_agree 4 [(2, 7), (0, 5)]
    (by unfold FunctionalRow; decide) (by decide) 2 (by decide)

/-! ## Lexer accept-action ordering (`src/TameParse/Compiler/lexer_stage.cpp`)

`language_accept_action::operator<` orders the accept actions attached to NFA
states; the lexer stage picks the *maximum* action under this order as the
effective accept of a DFA state (lexer_stage.cpp lines 347–362).

Unit types are numbered so that a numerically smaller unit type has the higher
priority.  Modelled from the spec: `language_unit.h` is not under src; per
§4.2 the priorities, highest first, are weak-keywords, weak-lexer, keywords,
lexer, ignore, lexer-symbols, and `operator<` treats the numerically smaller
unit type as the more important one. -/

/-- An NDFA accept action: either a plain `accept_action` (the base class,
whose subtype carries only the symbol id) or a `language_accept_action`
carrying the unit type of its lexer block and its weak flag. -/
inductive AcceptAction where
  | std (sym : Nat)
  | lang (sym : Nat) (unitType : Nat) (isWeak : Bool)
deriving DecidableEq, Repr

/-- `language_accept_action::operator<` (lexer_stage.cpp lines 50–69), with
the language action on the left-hand side:
line 55 returns `true` whenever the right-hand side is not a language action;
weak actions outrank strong ones; then numerically smaller unit types win;
then the smaller symbol id wins. -/
def langActionLt (sym : Nat) (unitType : Nat) (isWeak : Bool) :
    AcceptAction → Bool
  | .std _ => true
  | .lang bsym bunit bweak =>
    if bweak ≠ isWeak then (if bweak then true else false)
    else if bunit < unitType then true
    else if unitType < bunit then false
    else decide (sym > bsym)

/-- Modelled from the spec: the base `accept_action::operator<` (its header is
not under src).  Per the doc comment above the override, "actions with lower
symbol IDs are more important than those with higher symbol IDs". -/
def stdActionLt (sym : Nat) : AcceptAction → Bool
  | .std bsym => decide (sym > bsym)
  | .lang bsym _ _ => decide (sym > bsym)

/-- The virtual dispatch `*a < *b`: the override runs when the left operand is
a language action, the base comparison otherwise. -/
def acceptLt : AcceptAction → AcceptAction → Bool
  | .lang s u w, b => langActionLt s u w b
  | .std s, b => stdActionLt s b

/-- The ordering exactly as the claim words it: `A < B` iff, in order, `A` is
standard and `B` is a language action; or both are language actions and `A` is
strong while `B` is weak; or equally weak and `A`'s unit type has lower
priority (numerically larger); or equal unit type and `A`'s symbol id is
larger. -/
def claimLt : AcceptAction → AcceptAction → Bool
  | .std _, .lang _ _ _ => true
  | .lang sa ua wa, .lang sb ub wb =>
    if !wa && wb then true
    else if wa && !wb then false
    else if ub < ua then true
    else if ua < ub then false
    else decide (sa > sb)
  | _, _ => false

/-- **C3**: the code contradicts the claimed order on the standard-vs-language
clause.  For the language action `A = lang(sym 1, unit keywords, strong)` and
the standard action `B = std(sym 0)`, line 55 makes `A < B` *true* — sorting
every language action *below* every standard action — while under the claimed
strict total order (clause 1 only promotes standard actions below language
ones) `A < B` must be false.  With the spec-modelled base comparison the
relation is not even asymmetric: `std 9 < lang 2` and `lang 2 < std 9` both
hold, so it is no strict order at all. -/
theorem c3_language_below_standard_contradicts_claim :
    acceptLt (.lang 1 2 false) (.std 0) = true ∧
      claimLt (.lang 1 2 false) (.std 0) = false ∧
      acceptLt (.std 9) (.lang 2 0 false) = true ∧
      acceptLt (.lang 2 0 false) (.std 9) = true := by
  refine ⟨by decide, by decide, by decide, by decide⟩

/-! ## Language compiler (`src/Compiler/language_compiler.cpp`)

The states below keep exactly the compiler fields the claims are about:
the terminal dictionary, the per-terminal unit type, the unused / weak /
ignored symbol sets, the NFA additions, and the emitted diagnostics.

The terminal dictionary itself (`terminal_dictionary.h`) is not under src. -/

/-- Unit types of lexer blocks, numbered in priority order (highest first), as
iterated by `lexerDefinitionOrder` in `language_compiler::compile`. -/
def unitWeakKeywords : Nat := 0

def unitWeakLexer : Nat := 1

def unitKeywords : Nat := 2

def unitLexer : Nat := 3

def unitIgnore : Nat := 4

/-- The compiler state mutated by the lexer passes and the implicit-symbol
walk: `m_Terminals` (ids are list indices), `m_TypeForTerminal`,
`m_UnusedSymbols`, `m_WeakSymbols`, `m_IgnoredSymbols`, the NFA additions
`(text, symbol id)` made through `m_Lexer`, and the diagnostic codes reported
to the console, in order. -/
structure CompilerState where
  names : List String
  typeFor : Nat → Option Nat
  unused : List Nat
  weak : List Nat
  ignored : List Nat
  nfaAdds : List (String × Nat)
  diags : List String

/-- `terminal_dictionary::symbol_for_name`: the id of a name, `-1` when the
name has no entry.  Modelled from the spec: the dictionary is a bidirectional
map with stable insertion-ordered ids. -/
def symbolForName : List String → String → Int
  | [], _ => -1
  | x :: xs, n =>
    if x = n then 0
    else
      let r := symbolForName xs n
      if r < 0 then -1 else r + 1

theorem symbolForName_nonneg_iff (names : List String) (n : String) :
    0 ≤ symbolForName names n ↔ n ∈ names := by
  induction names with
  | nil => simp [symbolForName]
  | cons x xs ih =>
    by_cases hx : x = n
    · subst hx
      simp [symbolForName]
    · simp only [symbolForName, hx, if_false, List.mem_cons]
      by_cases hr : symbolForName xs n < 0
      · simp only [hr, if_true]
        constructor
        · intro h
          omega
        · intro h
          rcases h with h | h
          · exact absurd h.symm hx
          · rw [← ih] at h
            omega
      · simp only [hr, if_false]
        constructor
        · intro _
          right
          rw [← ih]
          omega
        · intro _
          omega

/-- Modelled from the spec: `process::dequote_string` (not under src) strips
the surrounding quote characters of a string or character literal; escape
processing is irrelevant to the claims and is not modelled. -/
def dequoteString (s : String) : String :=
  (s.drop 1).dropRight 1

/-- `definition().substr(1, definition().size()-2)`: remove the two `/`
delimiters of a regex definition. -/
def stripSlashes (s : String) : String :=
  (s.drop 1).dropRight 1

/-- The form of one lexeme definition (`lexeme_definition::type`). -/
inductive LexemeKind where
  | regex
  | literal
  | str
  | chr
deriving DecidableEq, Repr

/-- One lexeme definition of a lexer block: its name, its definition text,
its form, and the unit type of the block it appears in. -/
structure LexemeDef where
  name : String
  defn : String
  kind : LexemeKind
  blockType : Nat
deriving DecidableEq, Repr

/-- One iteration of the lexeme loop of `language_compiler::compile`
(language_compiler.cpp lines 76–148): a name already in the dictionary is
reported as `DUPLICATE_LEXER_SYMBOL`, and then — with no `continue` — the
symbol is added to the dictionary, its type recorded, marked unused unless
ignored, its definition added to the NFA, and classified weak/ignored. -/
def processLexeme (st : CompilerState) (lx : LexemeDef) : CompilerState :=
  let diags :=
    if 0 ≤ symbolForName st.names lx.name
    then st.diags ++ ["DUPLICATE_LEXER_SYMBOL"] else st.diags
  let symId := st.names.length
  let text :=
    match lx.kind with
    | .regex => stripSlashes lx.defn
    | .literal => lx.name
    | .str => dequoteString lx.defn
    | .chr => dequoteString lx.defn
  { names := st.names ++ [lx.name]
    typeFor := fun j => if j = symId then some lx.blockType else st.typeFor j
    unused := if lx.blockType ≠ unitIgnore then st.unused ++ [symId] else st.unused
    weak :=
      if lx.blockType = unitWeakLexer ∨ lx.blockType = unitWeakKeywords
      then st.weak ++ [symId] else st.weak
    ignored := if lx.blockType = unitIgnore then st.ignored ++ [symId] else st.ignored
    nfaAdds := st.nfaAdds ++ [(text, symId)]
    diags := diags }

/-- The lexeme loop over a priority-ordered list of lexeme definitions. -/
def processLexemes (st : CompilerState) (ls : List LexemeDef) : CompilerState :=
  ls.foldl processLexeme st

/-- The empty compiler state. -/
def emptyState : CompilerState :=
  ⟨[], fun _ => none, [], [], [], [], []⟩

/-- **C6**: processing the literal `"if"` as a keyword and then again as a
weak keyword reports `DUPLICATE_LEXER_SYMBOL`, but the second definition is
*not* skipped: the duplicate-name check at language_compiler.cpp lines 77–82
has no `continue`, so `add_symbol` runs again (the dictionary gains a second
entry for the name) and the literal is added to the lexer NFA a second time —
contradicting the claim that the dictionary keeps exactly one entry and that
the second definition contributes nothing to the NFA. -/
theorem c6_duplicate_definition_not_skipped :
    (processLexemes emptyState
        [⟨"if", "if", .literal, unitKeywords⟩,
         ⟨"if", "if", .literal, unitWeakKeywords⟩]).diags
      = ["DUPLICATE_LEXER_SYMBOL"] ∧
    (processLexemes emptyState
        [⟨"if", "if", .literal, unitKeywords⟩,
         ⟨"if", "if", .literal, unitWeakKeywords⟩]).nfaAdds
      = [("if", 0), ("if", 1)] ∧
    (processLexemes emptyState
        [⟨"if", "if", .literal, unitKeywords⟩,
         ⟨"if", "if", .literal, unitWeakKeywords⟩]).names
      = ["if", "if"] := by
  refine ⟨rfl, rfl, rfl⟩

/-! ### Implicit lexer symbols from the grammar (claim C7) -/

mutual
/-- An EBNF item of the language AST, as walked by
`language_compiler::add_ebnf_lexer_items`.  `node` stands for each of the
compound forms (guard, alternative, repeat-zero, repeat-one, optional,
parenthesized), which the walk treats identically by recursing into the
children; `terminal` carries its source-language qualifier. -/
inductive EbnfItem where
  | terminal (srcId : String) (ident : String)
  | terminalChar (ident : String)
  | terminalString (ident : String)
  | nonterminal (ident : String)
  | node (children : EbnfList)

/-- A list of EBNF items (children of a compound item). -/
inductive EbnfList where
  | nil
  | cons (head : EbnfItem) (tail : EbnfList)
end

/-- `terminal_character` / `terminal_string` handling
(language_compiler.cpp lines 317–339): create a literal symbol unless the
name is already defined; no warning, marked unused, typed weak-keywords,
added to the weak set. -/
def addGrammarLiteral (st : CompilerState) (ident : String) : CompilerState :=
  if 0 ≤ symbolForName st.names ident then st
  else
    let symId := st.names.length
    { st with
      names := st.names ++ [ident]
      nfaAdds := st.nfaAdds ++ [(dequoteString ident, symId)]
      unused := st.unused ++ [symId]
      typeFor := fun j => if j = symId then some unitWeakKeywords else st.typeFor j
      weak := st.weak ++ [symId] }

mutual
/-- `language_compiler::add_ebnf_lexer_items` (language_compiler.cpp lines
268–348): implicit definition of grammar-referenced terminals. -/
def addEbnfItem (st : CompilerState) : EbnfItem → CompilerState
  | .terminal srcId ident =>
    if srcId ≠ "" then st
    else if 0 ≤ symbolForName st.names ident then st
    else
      let symId := st.names.length
      { st with
        diags := st.diags ++ ["IMPLICIT_LEXER_SYMBOL"]
        names := st.names ++ [ident]
        nfaAdds := st.nfaAdds ++ [(ident, symId)]
        unused := st.unused ++ [symId]
        typeFor := fun j => if j = symId then some unitWeakKeywords else st.typeFor j
        weak := st.weak ++ [symId] }
  | .terminalChar ident => addGrammarLiteral st ident
  | .terminalString ident => addGrammarLiteral st ident
  | .nonterminal _ => st
  | .node cs => addEbnfList st cs

/-- The child loop of `add_ebnf_lexer_items` for compound items. -/
def addEbnfList (st : CompilerState) : EbnfList → CompilerState
  | .nil => st
  | .cons c cs => addEbnfList (addEbnfItem st c) cs
end

mutual
/-- The terminal names referenced by an EBNF item: bare terminals of the
current language, and character/string terminals. -/
inductive RefsTerminal : EbnfItem → String → Prop where
  | bare (n : String) : RefsTerminal (.terminal "" n) n
  | chr (n : String) : RefsTerminal (.terminalChar n) n
  | str (n : String) : RefsTerminal (.terminalString n) n
  | node (cs : EbnfList) (n : String) :
      RefsTerminalList cs n → RefsTerminal (.node cs) n

/-- The terminal names referenced by a list of EBNF items. -/
inductive RefsTerminalList : EbnfList → String → Prop where
  | head (c : EbnfItem) (cs : EbnfList) (n : String) :
      RefsTerminal c n → RefsTerminalList (.cons c cs) n
  | tail (c : EbnfItem) (cs : EbnfList) (n : String) :
      RefsTerminalList cs n → RefsTerminalList (.cons c cs) n
end

/-- The invariant linking a compiler state to the state after a piece of the
implicit-symbol walk: the dictionary, weak set and NFA additions only grow,
existing type records are untouched, and every freshly allocated terminal id
is weak, typed weak-keywords, and has an NFA literal. -/
def GoodStep (st st2 : CompilerState) : Prop :=
  (∃ d, st2.names = st.names ++ d) ∧
  (∃ d, st2.weak = st.weak ++ d) ∧
  (∃ d, st2.nfaAdds = st.nfaAdds ++ d) ∧
  (∀ j, j < st.names.length → st2.typeFor j = st.typeFor j) ∧
  (∀ id, st.names.length ≤ id → id < st2.names.length →
      id ∈ st2.weak ∧ st2.typeFor id = some unitWeakKeywords ∧
        ∃ t, (t, id) ∈ st2.nfaAdds)

theorem goodStep_refl (st : CompilerState) : GoodStep st st := by
  refine ⟨⟨[], by simp⟩, ⟨[], by simp⟩, ⟨[], by simp⟩, fun j _ => rfl, ?_⟩
  intro id h1 h2
  omega

theorem goodStep_trans {st st1 st2 : CompilerState}
    (g1 : GoodStep st st1) (g2 : GoodStep st1 st2) : GoodStep st st2 := by
  obtain ⟨⟨d1, hn1⟩, ⟨w1, hw1⟩, ⟨a1, ha1⟩, ht1, hi1⟩ := g1
  obtain ⟨⟨d2, hn2⟩, ⟨w2, hw2⟩, ⟨a2, ha2⟩, ht2, hi2⟩ := g2
  have hlen1 : st.names.length ≤ st1.names.length := by
    rw [hn1, List.length_append]
    omega
  refine ⟨⟨d1 ++ d2, by rw [hn2, hn1, List.append_assoc]⟩,
    ⟨w1 ++ w2, by rw [hw2, hw1, List.append_assoc]⟩,
    ⟨a1 ++ a2, by rw [ha2, ha1, List.append_assoc]⟩, ?_, ?_⟩
  · intro j hj
    rw [ht2 j (by omega), ht1 j hj]
  · intro id h1 h2
    by_cases hcase : id < st1.names.length
    · obtain ⟨hwk, hty, t, hnf⟩ := hi1 id h1 hcase
      refine ⟨?_, ?_, t, ?_⟩
      · rw [hw2]
        exact List.mem_append_left _ hwk
      · rw [ht2 id hcase, hty]
      · rw [ha2]
        exact List.mem_append_left _ hnf
    · exact hi2 id (by omega) h2

/-- The freshly defining branch of both `terminal` and
`terminal_character`/`terminal_string` handling is one `GoodStep`. -/
theorem goodStep_extend (st : CompilerState) (nm text : String)
    (uw nw : List Nat) (dg : List String)
    (hw : nw = st.weak ++ [st.names.length]) :
    GoodStep st
      { st with
        diags := dg
        names := st.names ++ [nm]
        nfaAdds := st.nfaAdds ++ [(text, st.names.length)]
        unused := uw
        typeFor := fun j =>
          if j = st.names.length then some unitWeakKeywords else st.typeFor j
        weak := nw } := by
  refine ⟨⟨[nm], rfl⟩, ⟨[st.names.length], hw⟩, ⟨[(text, st.names.length)], rfl⟩, ?_, ?_⟩
  · intro j hj
    have : j ≠ st.names.length := by omega
    simp only [this, if_false]
  · intro id h1 h2
    simp only [List.length_append, List.length_cons, List.length_nil] at h2
    have hid : id = st.names.length := by omega
    subst hid
    refine ⟨?_, by simp, ⟨text, ?_⟩⟩
    · rw [hw]
      exact List.mem_append_right _ (by simp)
    · exact List.mem_append_right _ (by simp)

theorem addGrammarLiteral_good (st : CompilerState) (ident : String) :
    GoodStep st (addGrammarLiteral st ident) ∧ ident ∈ (addGrammarLiteral st ident).names := by
  unfold addGrammarLiteral
  by_cases h : 0 ≤ symbolForName st.names ident
  · simp only [h, if_true]
    exact ⟨goodStep_refl st, (symbolForName_nonneg_iff _ _).mp h⟩
  · simp only [h, if_false]
    refine ⟨goodStep_extend st ident (dequoteString ident) _ _ _ rfl, ?_⟩
    exact List.mem_append_right _ (by simp)

mutual
theorem addEbnfItem_good (st : CompilerState) (it : EbnfItem) :
    GoodStep st (addEbnfItem st it) ∧
      ∀ n, RefsTerminal it n → n ∈ (addEbnfItem st it).names := by
  cases it with
  | terminal srcId ident =>
    by_cases hsrc : srcId ≠ ""
    · rw [show addEbnfItem st (.terminal srcId ident) = st by
        unfold addEbnfItem
        simp [hsrc]]
      refine ⟨goodStep_refl st, ?_⟩
      intro n hr
      cases hr
      exact absurd rfl hsrc
    · have hsrc2 : srcId = "" := by simpa using hsrc
      subst hsrc2
      by_cases hdef : 0 ≤ symbolForName st.names ident
      · rw [show addEbnfItem st (.terminal "" ident) = st by
          unfold addEbnfItem
          simp [hdef]]
        refine ⟨goodStep_refl st, ?_⟩
        intro n hr
        cases hr
        exact (symbolForName_nonneg_iff _ _).mp hdef
      · rw [show addEbnfItem st (.terminal "" ident)
            = { st with
                diags := st.diags ++ ["IMPLICIT_LEXER_SYMBOL"]
                names := st.names ++ [ident]
                nfaAdds := st.nfaAdds ++ [(ident, st.names.length)]
                unused := st.unused ++ [st.names.length]
                typeFor := fun j =>
                  if j = st.names.length then some unitWeakKeywords else st.typeFor j
                weak := st.weak ++ [st.names.length] } by
          unfold addEbnfItem
          simp [hdef]]
        refine ⟨goodStep_extend st ident ident _ _ _ rfl, ?_⟩
        intro n hr
        cases hr
        exact List.mem_append_right _ (by simp)
  | terminalChar ident =>
    refine ⟨(addGrammarLiteral_good st ident).1, ?_⟩
    intro n hr
    cases hr
    exact (addGrammarLiteral_good st ident).2
  | terminalString ident =>
    refine ⟨(addGrammarLiteral_good st ident).1, ?_⟩
    intro n hr
    cases hr
    exact (addGrammarLiteral_good st ident).2
  | nonterminal ident =>
    refine ⟨goodStep_refl st, ?_⟩
    intro n hr
    cases hr
  | node cs =>
    refine ⟨(addEbnfList_good st cs).1, ?_⟩
    intro n hr
    cases hr with
    | node _ _ h => exact (addEbnfList_good st cs).2 n h

theorem addEbnfList_good (st : CompilerState) (cs : EbnfList) :
    GoodStep st (addEbnfList st cs) ∧
      ∀ n, RefsTerminalList cs n → n ∈ (addEbnfList st cs).names := by
  cases cs with
  | nil =>
    refine ⟨goodStep_refl st, ?_⟩
    intro n hr
    cases hr
  | cons c cs =>
    have h1 := addEbnfItem_good st c
    have h2 := addEbnfList_good (addEbnfItem st c) cs
    refine ⟨goodStep_trans h1.1 h2.1, ?_⟩
    intro n hr
    cases hr with
    | head _ _ _ h =>
      have hn := h1.2 n h
      obtain ⟨⟨d, hd⟩, _, _, _, _⟩ := h2.1
      show n ∈ (addEbnfList (addEbnfItem st c) cs).names
      rw [hd]
      exact List.mem_append_left _ hn
    | tail _ _ _ h => exact h2.2 n h
end

/-- **C7**: during the implicit-symbol walk, every terminal name referenced
by an EBNF item (a bare terminal of the current language, or a character or
string terminal) is in the terminal dictionary afterwards; every freshly
allocated terminal id is recorded with unit type weak-keywords, placed in the
weak-symbol set, and given a literal NFA entry; and a bare terminal whose name
was not previously defined additionally reports `IMPLICIT_LEXER_SYMBOL`. -/
theorem c7_implicit_symbols_weak (st : CompilerState) (it : EbnfItem) :
    (∀ id, st.names.length ≤ id → id < (addEbnfItem st it).names.length →
        id ∈ (addEbnfItem st it).weak ∧
        (addEbnfItem st it).typeFor id = some unitWeakKeywords ∧
        ∃ t, (t, id) ∈ (addEbnfItem st it).nfaAdds) ∧
    (∀ n, RefsTerminal it n → n ∈ (addEbnfItem st it).names) ∧
    (∀ src n, it = EbnfItem.terminal src n → src = "" → n ∉ st.names →
        "IMPLICIT_LEXER_SYMBOL" ∈ (addEbnfItem st it).diags) := by
  obtain ⟨⟨_, _, _, _, hfresh⟩, hrefs⟩ := addEbnfItem_good st it
  refine ⟨hfresh, hrefs, ?_⟩
  intro src n hit hsrc hnot
  subst hit
  subst hsrc
  have hneg : ¬ 0 ≤ symbolForName st.names n := by
    rw [symbolForName_nonneg_iff]
    exact hnot
  rw [show addEbnfItem st (.terminal "" n)
      = { st with
          diags := st.diags ++ ["IMPLICIT_LEXER_SYMBOL"]
          names := st.names ++ [n]
          nfaAdds := st.nfaAdds ++ [(n, st.names.length)]
          unused := st.unused ++ [st.names.length]
          typeFor := fun j =>
            if j = st.names.length then some unitWeakKeywords else st.typeFor j
          weak := st.weak ++ [st.names.length] } by
    unfold addEbnfItem
    simp [hneg]]
  exact List.mem_append_right _ (by simp)

/-- Witness for **C7**: the bare terminal `"while"` with no prior definition,
walked from the empty state, becomes terminal id 0: weak, weak-keywords typed,
with an NFA literal, in the dictionary, and with the warning reported. -/
theorem c7_implicit_symbols_weak_witness :
    (0 ∈ (addEbnfItem emptyState (.terminal "" "while")).weak ∧
      (addEbnfItem emptyState (.terminal "" "while")).typeFor 0 = some unitWeakKeywords ∧
      ∃ t, (t, 0) ∈ (addEbnfItem emptyState (.terminal "" "while")).nfaAdds) ∧
    "while" ∈ (addEbnfItem emptyState (.terminal "" "while")).names ∧
    "IMPLICIT_LEXER_SYMBOL" ∈ (addEbnfItem emptyState (.terminal "" "while")).diags := by
  have h := c7_implicit_symbols_weak emptyState (.terminal "" "while")
  exact ⟨h.1 0 (by decide) (by decide),
    h.2.1 "while" (RefsTerminal.bare "while"),
    h.2.2 "" "while" rfl rfl (by decide)⟩

/-! ### Undefined-nonterminal diagnostics (claim C8) -/

/-- A source position `(offset, line, column)`; `(-1, -1, -1)` is the
sentinel for an unknown position. -/
structure SourcePos where
  off : Int
  line : Int
  col : Int
deriving DecidableEq, Repr

/-- `language_compiler::compile_item`, nonterminal case (lines 378–380):
record the position of the first reference to a nonterminal, leaving any
earlier record untouched. -/
def recordUsage (m : List (Nat × SourcePos)) (nt : Nat) (p : SourcePos) :
    List (Nat × SourcePos) :=
  if (m.find? (fun q => q.1 == nt)).isSome then m else m ++ [(nt, p)]

/-- `m_FirstNonterminalUsage` lookup. -/
def lookupUsage (m : List (Nat × SourcePos)) (nt : Nat) : Option SourcePos :=
  (m.find? (fun q => q.1 == nt)).map (fun q => q.2)

/-- The diagnostics loop of `language_compiler::compile` (lines 240–254):
for every nonterminal id below `max_nonterminal` whose rule list is empty,
report `UNDEFINED_NONTERMINAL` at the first recorded usage position, or at
the sentinel when none was recorded. -/
def undefinedNtErrors (maxNT : Nat) (ruleCount : Nat → Nat)
    (firstUse : Nat → Option SourcePos) : List (String × SourcePos) :=
  (List.range maxNT).filterMap (fun id =>
    if ruleCount id = 0
    then some ("UNDEFINED_NONTERMINAL", (firstUse id).getD ⟨-1, -1, -1⟩)
    else none)

theorem recordUsage_fold_lookup (us : List (Nat × SourcePos))
    (m : List (Nat × SourcePos)) (nt : Nat) :
    lookupUsage (us.foldl (fun acc q => recordUsage acc q.1 q.2) m) nt
      = Option.or (lookupUsage m nt)
          ((us.find? (fun q => q.1 == nt)).map (fun q => q.2)) := by
  induction us generalizing m with
  | nil => simp
  | cons q us ih =>
    simp only [List.foldl_cons]
    rw [ih]
    by_cases hq : q.1 = nt
    · -- the head is a reference to nt
      cases hm : m.find? (fun z => z.1 == nt) with
      | some z =>
        have hrec : recordUsage m q.1 q.2 = m := by
          unfold recordUsage
          rw [if_pos]
          rw [hq, hm]
          rfl
        rw [hrec]
        unfold lookupUsage
        rw [hm, List.find?_cons_of_pos us (by simp [hq])]
        rfl
      | none =>
        have hrec : recordUsage m q.1 q.2 = m ++ [(q.1, q.2)] := by
          unfold recordUsage
          rw [if_neg]
          rw [hq, hm]
          simp
        rw [hrec]
        unfold lookupUsage
        rw [List.find?_append, hm,
          List.find?_cons_of_pos ([] : List (Nat × SourcePos)) (by simp [hq]),
          List.find?_cons_of_pos us (by simp [hq])]
        rfl
    · have hrec : lookupUsage (recordUsage m q.1 q.2) nt = lookupUsage m nt := by
        unfold recordUsage
        by_cases hfound : (m.find? (fun z => z.1 == q.1)).isSome
        · rw [if_pos hfound]
        · rw [if_neg hfound]
          unfold lookupUsage
          rw [List.find?_append]
          have : List.find? (fun z => z.1 == nt) [(q.1, q.2)] = none := by
            simp [hq]
          rw [this]
          simp
      rw [hrec, List.find?_cons_of_neg us (by simp [hq])]

/-- **C8**: after grammar lowering, every nonterminal id below
`max_nonterminal` with no rules is reported as `UNDEFINED_NONTERMINAL`,
carrying the position of the first recorded reference (the usage map keeps
the first reference of each nonterminal) or the sentinel `(-1,-1,-1)` when
no usage was recorded; no rule-less nonterminal escapes the loop. -/
theorem c8_undefined_nonterminals_reported :
    (∀ (us : List (Nat × SourcePos)) (nt : Nat),
        lookupUsage (us.foldl (fun acc q => recordUsage acc q.1 q.2) []) nt
          = (us.find? (fun q => q.1 == nt)).map (fun q => q.2)) ∧
    (∀ (maxNT : Nat) (ruleCount : Nat → Nat) (firstUse : Nat → Option SourcePos)
        (id : Nat), id < maxNT → ruleCount id = 0 →
        ("UNDEFINED_NONTERMINAL", (firstUse id).getD ⟨-1, -1, -1⟩)
          ∈ undefinedNtErrors maxNT ruleCount firstUse) := by
  constructor
  · intro us nt
    rw [recordUsage_fold_lookup us [] nt]
    simp [lookupUsage]
  · intro maxNT ruleCount firstUse id hid hzero
    unfold undefinedNtErrors
    rw [List.mem_filterMap]
    refine ⟨id, List.mem_range.mpr hid, ?_⟩
    rw [if_pos hzero]

/-- Witness for **C8**: a nonterminal referenced twice keeps its first
position, and a rule-less nonterminal with no recorded usage is reported at
the sentinel position. -/
theorem c8_undefined_nonterminals_reported_witness :
    lookupUsage
        ([((3 : Nat), (⟨1, 2, 3⟩ : SourcePos)), (3, ⟨9, 9, 9⟩)].foldl
          (fun acc q => recordUsage acc q.1 q.2) []) 3
      = some ⟨1, 2, 3⟩ ∧
    ("UNDEFINED_NONTERMINAL", (⟨-1, -1, -1⟩ : SourcePos))
      ∈ undefinedNtErrors 2 (fun id => if id = 0 then 1 else 0) (fun _ => none) := by
  constructor
  · rw [c8_undefined_nonterminals_reported.1 [(3, ⟨1, 2, 3⟩), (3, ⟨9, 9, 9⟩)] 3]
    rfl
  · exact c8_undefined_nonterminals_reported.2 2 (fun id => if id = 0 then 1 else 0)
      (fun _ => none) 1 (by decide) rfl

/-! ## Run-time parser (`src/Lr/parser.h`)

The generic parser is driven by `parser_tables` (a header not under src):
per-state action rows sorted by symbol id, reached through
`find_terminal` / `find_nonterminal`, plus the rule table.  Modelled from the
spec: `termActs st sym` / `ntActs st nt` give the row tail starting at the
binary-search lower bound for the symbol, in table order, and the scanning
loops stop at the first action whose symbol id differs. -/

/-- The action kinds dispatched by `parser.h` (`lr_action::action_type`). -/
inductive ActionKind where
  | shift
  | reduce
  | weakreduce
  | accept
  | goto
  | divert
  | ignore
  | guard
deriving DecidableEq, Repr

/-- One packed parser action: its kind, its `m_NextState` field (the target
state, or the rule id for reduce/weak-reduce/accept), and its symbol id. -/
structure PAction where
  kind : ActionKind
  nextState : Nat
  symbolId : Nat
deriving DecidableEq, Repr

/-- Modelled from the spec: the `parser_tables` interface consumed by
`parser.h` (its header is not under src).  `termActs`/`ntActs` return the
sorted action row from the lower bound for the queried symbol onwards;
`ruleLen`/`ruleId` are the reduce-rule table. -/
structure ParserTables where
  termActs : Nat → Nat → List PAction
  ntActs : Nat → Nat → List PAction
  ruleLen : Nat → Nat
  ruleId : Nat → Nat

/-- The pop loop of `fake_reduce` (parser.h lines 487–496): pop the scratch
stack while it lasts, then descend into the real stack. -/
def popN : Nat → Nat → List Nat → Nat × List Nat
  | 0, d, pushed => (d, pushed)
  | n + 1, d, [] => popN n (d + 1) []
  | n + 1, d, _ :: rest => popN n d rest

/-- The state on top of the simulated stack: the scratch stack's top when it
is non-empty, else `m_Stack[stackPos].state` at depth `d` below the real top. -/
def topState (stk : Nat → Nat) (d : Nat) (pushed : List Nat) : Nat :=
  match pushed with
  | p :: _ => p
  | [] => stk d

/-- `parser::state::fake_reduce` (parser.h lines 483–515): pop the rule's
length, then push the first `goto` action found in the nonterminal row of the
exposed state for the rule's nonterminal (pushing nothing when none exists). -/
def fakeReduce (T : ParserTables) (stk : Nat → Nat) (ruleRef : Nat)
    (d : Nat) (pushed : List Nat) : Nat × List Nat :=
  let pr := popN (T.ruleLen ruleRef) d pushed
  match (T.ntActs (topState stk pr.1 pr.2) (T.ruleId ruleRef)).find?
      (fun a => a.kind == ActionKind.goto) with
  | some g => (pr.1, g.nextState :: pr.2)
  | none => pr

/-- One pass of the `while` loop of `parser::state::can_reduce`
(parser.h lines 564–640), with `next` standing for the continuation at one
less unit of fuel (each re-entry of the loop body after a state change
consumes fuel; advancing `act++` past a failed weak reduce does not):

* an action for a different symbol, or row exhaustion → `false`;
* `shift`/`accept` → `true`;
* `divert` → push the target and re-examine *the same action*: the code
  neither advances `act` nor re-fetches the row (the pushed state is never
  consulted), so the loop spins;
* `weakreduce` → simulate on a copied stack and recurse; on failure continue
  with the next action;
* `reduce` → simulate, re-fetch the row in the new state, continue;
* anything else → `false`. -/
def scanRow (T : ParserTables) (stk : Nat → Nat) (sym : Nat)
    (next : Nat → List Nat → List PAction → Option Bool) :
    Nat → List Nat → List PAction → Option Bool
  | _, _, [] => some false
  | d, pushed, a :: rest =>
    if a.symbolId ≠ sym then some false
    else
      match a.kind with
      | .shift => some true
      | .accept => some true
      | .divert => next d (a.nextState :: pushed) (a :: rest)
      | .weakreduce =>
        let pr := fakeReduce T stk a.nextState d pushed
        match next pr.1 pr.2 (T.termActs (topState stk pr.1 pr.2) sym) with
        | some true => some true
        | some false => scanRow T stk sym next d pushed rest
        | none => none
      | .reduce =>
        let pr := fakeReduce T stk a.nextState d pushed
        next pr.1 pr.2 (T.termActs (topState stk pr.1 pr.2) sym)
      | _ => some false

/-- Fuelled `can_reduce` scan: `none` means the fuel ran out (the C++ loop is
still running), `some b` means the C++ function returns `b`. -/
def canReduceScan (T : ParserTables) (stk : Nat → Nat) (sym : Nat) :
    Nat → Nat → List Nat → List PAction → Option Bool
  | 0 => fun _ _ _ => none
  | fuel + 1 => scanRow T stk sym (canReduceScan T stk sym fuel)

/-- `parser::state::can_reduce(symbol)` (parser.h lines 648–659): start at
the top of the real stack with an empty scratch stack. -/
def canReduce (T : ParserTables) (stk : Nat → Nat) (sym : Nat) (fuel : Nat) :
    Option Bool :=
  canReduceScan T stk sym fuel 0 [] (T.termActs (stk 0) sym)

/-- The claim's characterisation of `can_reduce`: a finite sequence of
reduce and divert steps simulated on the scratch stack (popping each reduced
rule's length and pushing the goto destination of its nonterminal), without
touching the real stack, reaches a state whose action for the terminal is
shift or accept; a weak reduce counts as successful exactly when its own
simulation on a fresh copy of the scratch stack succeeds, and otherwise the
search advances past it. -/
inductive ReachesShift (T : ParserTables) (stk : Nat → Nat) (t : Nat) :
    Nat → List Nat → List PAction → Prop where
  | shift (d : Nat) (pushed : List Nat) (s : Nat) (rest : List PAction) :
      ReachesShift T stk t d pushed (⟨.shift, s, t⟩ :: rest)
  | accept (d : Nat) (pushed : List Nat) (r : Nat) (rest : List PAction) :
      ReachesShift T stk t d pushed (⟨.accept, r, t⟩ :: rest)
  | divert (d : Nat) (pushed : List Nat) (s : Nat) (rest : List PAction) :
      ReachesShift T stk t d (s :: pushed) (T.termActs s t) →
      ReachesShift T stk t d pushed (⟨.divert, s, t⟩ :: rest)
  | reduce (d : Nat) (pushed : List Nat) (r : Nat) (rest : List PAction) :
      ReachesShift T stk t (fakeReduce T stk r d pushed).1 (fakeReduce T stk r d pushed).2
        (T.termActs
          (topState stk (fakeReduce T stk r d pushed).1 (fakeReduce T stk r d pushed).2) t) →
      ReachesShift T stk t d pushed (⟨.reduce, r, t⟩ :: rest)
  | weakSucceed (d : Nat) (pushed : List Nat) (r : Nat) (rest : List PAction) :
      ReachesShift T stk t (fakeReduce T stk r d pushed).1 (fakeReduce T stk r d pushed).2
        (T.termActs
          (topState stk (fakeReduce T stk r d pushed).1 (fakeReduce T stk r d pushed).2) t) →
      ReachesShift T stk t d pushed (⟨.weakreduce, r, t⟩ :: rest)
  | weakSkip (d : Nat) (pushed : List Nat) (r : Nat) (rest : List PAction) :
      ReachesShift T stk t d pushed rest →
      ReachesShift T stk t d pushed (⟨.weakreduce, r, t⟩ :: rest)

/-- The claim's success condition for `can_reduce(t)` from the current stack
configuration (top of the real stack, empty scratch stack). -/
def CanReduceSpec (T : ParserTables) (stk : Nat → Nat) (t : Nat) : Prop :=
  ReachesShift T stk t 0 [] (T.termActs (stk 0) t)

/-- The failing tables for claim C1: in state 0 the only action for terminal
7 is `divert` to state 1, whose action for terminal 7 is `shift`. -/
def c1Tables : ParserTables where
  termActs := fun st sym =>
    if st = 0 ∧ sym = 7 then [⟨.divert, 1, 7⟩]
    else if st = 1 ∧ sym = 7 then [⟨.shift, 2, 7⟩]
    else []
  ntActs := fun _ _ => []
  ruleLen := fun _ => 0
  ruleId := fun _ => 0

/-- The real parser stack for claim C1: state 0 everywhere. -/
def c1Stack : Nat → Nat := fun _ => 0

/-- **C1**: at the configuration with state 0 on top of the stack and
lookahead terminal 7, the claimed characterisation holds — the single divert
step reaches state 1 whose action for 7 is shift — but `can_reduce` never
returns: the divert case of the loop pushes the divert target and then
re-examines the *same* action without advancing the iterator or re-fetching
the row, so no amount of fuel produces an answer, let alone `true`. -/
theorem c1_can_reduce_divert_nontermination :
    (∀ fuel : Nat, canReduce c1Tables c1Stack 7 fuel = none) ∧
      CanReduceSpec c1Tables c1Stack 7 := by
  constructor
  · intro fuel
    have h : ∀ (n : Nat) (pushed : List Nat),
        canReduceScan c1Tables c1Stack 7 n 0 pushed
          [⟨ActionKind.divert, 1, 7⟩] = none := by
      intro n
      induction n with
      | zero => intro pushed; rfl
      | succ k ih => intro pushed; exact ih (1 :: pushed)
    exact h fuel []
  · exact ReachesShift.divert 0 [] 1 [] (ReachesShift.shift 0 [1] 2 [])

/-- The stack-and-consume effect of `perform_generic` with the standard
actions (parser.h lines 190–242, 249–298), on the stack of states (items do
not influence control flow).  `guardSym` stands for the value returned by
`check_guard` in the guard case; the code computes it, tests `guardSym >= 0`
with an *empty* then-branch, and unconditionally returns `true` (consume the
lookahead), leaving the stack untouched and performing no substitution. -/
def performStd (T : ParserTables) (act : PAction) (_guardSym : Int)
    (stkS : List Nat) : List Nat × Bool :=
  match act.kind with
  | .ignore => (stkS, true)
  | .shift => (act.nextState :: stkS, true)
  | .divert => (act.nextState :: stkS, false)
  | .reduce =>
    let rest := stkS.drop (T.ruleLen act.nextState)
    (match (T.ntActs (rest.headD 0) (T.ruleId act.nextState)).find?
        (fun g => g.kind == ActionKind.goto) with
     | some g => (g.nextState :: rest, false)
     | none => (rest, false))
  | .weakreduce =>
    let rest := stkS.drop (T.ruleLen act.nextState)
    (match (T.ntActs (rest.headD 0) (T.ruleId act.nextState)).find?
        (fun g => g.kind == ActionKind.goto) with
     | some g => (g.nextState :: rest, false)
     | none => (rest, false))
  | .goto =>
    (match stkS with
     | _ :: below => act.nextState :: below
     | [] => [act.nextState], false)
  | .accept => (stkS, false)
  | .guard => (stkS, true)

/-- **C2**: executing a `guard(g)` action leaves the parser stack unchanged
and consumes the lookahead *whatever* `check_guard` returned: for every
table, guard target, symbol, stack, and every guard result — matched
(`guardSym ≥ 0`) or not — the action's effect is `(stack unchanged, consume)`.
The claim instead requires a matched guard to substitute the guard symbol for
the lookahead and a failed guard to leave the lookahead unconsumed and fall
through to the next action. -/
theorem c2_guard_result_discarded :
    ∀ (T : ParserTables) (g sym : Nat) (guardSym : Int) (stkS : List Nat),
      performStd T ⟨ActionKind.guard, g, sym⟩ guardSym stkS = (stkS, true) := by
  intro T g sym guardSym stkS
  rfl

end TameParse
